import Mathlib

/-!
Shallow embedding of `product_scraper.py` (sequential top-level script) and
`src/product_scraper.py` (thread-pool variant), for checking the repository's
natural-language specification.

Python strings are modelled as Lean `String`s, but every string operation the
scraper uses (`str.strip`, `str.split("/")`, `" / ".join`, tuple comparison of
strings) is implemented here as a structurally recursive function over
`String.data`, so that all definitions evaluate inside the kernel.
Network responses and the environment are modelled as explicit oracles.
-/

namespace Scraper

/-- Python `str.strip()` on a character list: drop whitespace from both ends. -/
def trimChars (l : List Char) : List Char :=
  ((l.dropWhile Char.isWhitespace).reverse.dropWhile Char.isWhitespace).reverse

/-- Python `text.strip()`. -/
def pyStrip (s : String) : String :=
  ⟨trimChars s.data⟩

/-- Python `text.split("/")` on the underlying character list: split at every
`'/'`, keeping empty segments (`"".split("/") == [""]`). -/
def splitSlash : List Char → List (List Char)
  | [] => [[]]
  | c :: rest =>
    if c = '/' then [] :: splitSlash rest
    else
      match splitSlash rest with
      | [] => [[c]]
      | p :: ps => (c :: p) :: ps

/-- Python `text.split("/")`. -/
def pySplitSlash (s : String) : List String :=
  (splitSlash s.data).map String.mk

/-- Python `" / ".join(parts)`. -/
def joinSep : List String → String
  | [] => ""
  | [p] => p
  | p :: ps => p ++ " / " ++ joinSep ps

/-- The list `[p.strip() for p in text.split("/") if p.strip()]`. -/
def segmentsOf (text : String) : List String :=
  ((pySplitSlash text).map pyStrip).filter (fun p => p != "")

/-- Embedding of `_parse_code_and_name` (identical in both scripts):

    parts = [p.strip() for p in text.split("/") if p.strip()]
    if not parts: return "", text.strip()
    code = parts[0]
    name = " / ".join(parts[1:]) if len(parts) > 1 else text.strip()
    return code, name
-/
def _parse_code_and_name (text : String) : String × String :=
  match segmentsOf text with
  | [] => ("", pyStrip text)
  | [c] => (c, pyStrip text)
  | c :: rest => (c, joinSep rest)

/-- A raw product entry as returned by the search endpoint: the values of
`item.get("id", "")` and `item.get("text", "")` after `str(...)` coercion
(a missing field is the empty string). -/
structure RawItem where
  id : String
  text : String
deriving DecidableEq, Repr

/-- A deduplicated catalog entry `{"id": key[0], "text": key[1]}`. -/
structure Entry where
  id : String
  text : String
deriving DecidableEq, Repr

instance : Inhabited Entry := ⟨⟨"", ""⟩⟩

/-- The composite key `(str(item.get("id", "")).strip(), str(item.get("text", "")).strip())`. -/
def keyOf (item : RawItem) : String × String :=
  (pyStrip item.id, pyStrip item.text)

/-- One iteration of the inner loop of `collect_full_catalog`:

    key = (str(item.get("id", "")).strip(), str(item.get("text", "")).strip())
    if key not in catalog and key[0] and key[1]:
        catalog[key] = {"id": key[0], "text": key[1]}

Since the stored value is determined by the key, the insertion-ordered dict is
modelled as the list of its keys (appending = inserting a fresh dict key). -/
def insertItem (cat : List (String × String)) (item : RawItem) : List (String × String) :=
  let key := keyOf item
  if key ∉ cat ∧ key.1 ≠ "" ∧ key.2 ≠ "" then cat ++ [key] else cat

/-- The keys of the catalog dict after processing each term's fetched items in
the given order (`results` holds one item list per completed term fetch, in
processing order). -/
def collectKeys (results : List (List RawItem)) : List (String × String) :=
  results.flatten.foldl insertItem []

/-- Embedding of `collect_full_catalog`'s output `list(catalog.values())`,
given the per-term fetch results in processing order. -/
def collect_full_catalog (results : List (List RawItem)) : List Entry :=
  (collectKeys results).map (fun k => ⟨k.1, k.2⟩)

/-- Outcome of one price POST request: a raised exception, or a response with
an HTTP status code and a text body. -/
inductive FetchOutcome where
  | err : FetchOutcome
  | resp : Nat → String → FetchOutcome
deriving DecidableEq, Repr

/-- Embedding of `fetch_price` (= `_fetch_price_blocking` in the pool variant):

    try:
        resp = session.post(PRICE_URL, data={"id": str(pid)}, timeout=15)
        if resp.status_code == 200:
            price = resp.text.strip()
            return price if price else ""
    except Exception:
        return ""
    return ""
-/
def fetch_price (outcome : FetchOutcome) : String :=
  match outcome with
  | .err => ""
  | .resp status body =>
    if status = 200 then
      let price := pyStrip body
      if price != "" then price else ""
    else ""

/-- An enriched product record. -/
structure Enriched where
  product_name : String
  product_code : String
  marketing_price : String
deriving DecidableEq, Repr

instance : Inhabited Enriched := ⟨⟨"", "", ""⟩⟩

/-- Association-list lookup, modelling `pid in dict` / `dict[pid]`. -/
def lookupAssoc : List (String × String) → String → Option String
  | [], _ => none
  | (k, v) :: rest, x => if k = x then some v else lookupAssoc rest x

/-- The enriched record built for one catalog entry, given its resolved price. -/
def mkRecord (e : Entry) (price : String) : Enriched :=
  let cn := _parse_code_and_name e.text
  ⟨cn.2, cn.1, price⟩

/-- State threaded through the loop of the sequential `enrich_with_prices`:
the `id_to_price` cache, the `enriched` output list, and the log of product
ids for which `fetch_price` was actually invoked. -/
structure EnrichState where
  cache : List (String × String)
  enriched : List Enriched
  fetchLog : List String

/-- One iteration of the sequential `enrich_with_prices` loop:

    pid = product["id"]; text = product["text"]
    if pid not in id_to_price:
        id_to_price[pid] = fetch_price(session, pid)
    price = id_to_price[pid]
    code, name = _parse_code_and_name(text)
    enriched.append({...})

`fetch` maps a product id to the string `fetch_price` returns for it. -/
def enrichStep (fetch : String → String) (st : EnrichState) (product : Entry) : EnrichState :=
  let pid := product.id
  let st1 :=
    if lookupAssoc st.cache pid = none then
      { st with cache := st.cache ++ [(pid, fetch pid)], fetchLog := st.fetchLog ++ [pid] }
    else st
  let price := (lookupAssoc st1.cache pid).getD ""
  { st1 with enriched := st1.enriched ++ [mkRecord product price] }

/-- Embedding of the sequential `enrich_with_prices`. -/
def enrich_with_prices (fetch : String → String) (catalog : List Entry) : EnrichState :=
  catalog.foldl (enrichStep fetch) ⟨[], [], []⟩

/-- Comparison of two characters by code point, `a < b` in Python. -/
def charLt (a b : Char) : Bool :=
  a.toNat < b.toNat

/-- Python string `<`: strict lexicographic comparison by code points. -/
def ltChars : List Char → List Char → Bool
  | [], [] => false
  | [], _ :: _ => true
  | _ :: _, [] => false
  | a :: as, b :: bs =>
    if charLt a b then true else if charLt b a then false else ltChars as bs

/-- Python string `<=`: lexicographic comparison by code points. -/
def leChars : List Char → List Char → Bool
  | [], _ => true
  | _ :: _, [] => false
  | a :: as, b :: bs =>
    if charLt a b then true else if charLt b a then false else leChars as bs

/-- The sort key `(x["product_name"], x["product_code"])`. -/
def sortKey (p : Enriched) : List Char × List Char :=
  (p.product_name.data, p.product_code.data)

/-- Python tuple-of-strings `<=`: lexicographic on the pair. -/
def keyLE (a b : List Char × List Char) : Bool :=
  ltChars a.1 b.1 || (a.1 == b.1 && leChars a.2 b.2)

/-- The comparison `(a.product_name, a.product_code) <= (b.product_name, b.product_code)`
used by `sorted(products, key=lambda x: (x["product_name"], x["product_code"]))`. -/
def prodLe (a b : Enriched) : Bool :=
  keyLE (sortKey a) (sortKey b)

/-- Embedding of `save_json`'s computation: Python's `sorted` is a stable sort
by the key tuple, modelled by the stable `List.mergeSort`. The function
returns `products_sorted`, which is also what is serialized. -/
def save_json (products : List Enriched) : List Enriched :=
  products.mergeSort prodLe

/-- Path of the products file written by the top-level `save_json`
(`open("products.json", "w")`). -/
def products_path : String := "products.json"

/-- Path of the date file written by the top-level `write_last_updated_file`
(`open("last_updated.txt", "w")`). -/
def last_updated_path : String := "last_updated.txt"

/-- Whether the top-level script creates an output directory before writing:
it calls no `os.makedirs`. -/
def creates_output_dir : Bool := false

/-- A path names a dedicated location distinct from the working directory
exactly when it has a directory component. -/
def inDedicatedDir (p : String) : Bool :=
  p.data.contains '/'

/-- Python truthiness test `not username` on an `os.getenv` result: true when
the variable is unset (`None`) or set to the empty string. -/
def falsyEnv : Option String → Bool
  | none => true
  | some s => s == ""

/-- Result of `login()`: process termination with an exit code, or an
authenticated session. -/
inductive LoginOutcome where
  | exitCode : Nat → LoginOutcome
  | session : LoginOutcome
deriving DecidableEq, Repr

/-- Oracle for the two login POST requests: whether the first raises, and the
HTTP status of the second (or that it raises). -/
structure LoginNet where
  req1 : Except Unit Unit
  req2 : Except Unit Nat

/-- The method `requests.Response.raise_for_status` raises exactly for 4xx/5xx codes. -/
def raise_for_status_fails (status : Nat) : Bool :=
  400 ≤ status && status < 600

/-- Embedding of `login()` (identical in both scripts). Returns the outcome
together with the list of network requests attempted (`1` = the first POST,
`2` = the second POST), in order:

    if not username or not password: sys.exit(2)
    try:
        s.post(LOGIN_URL, data={"user": username}, timeout=15)
        resp = s.post(LOGIN_URL, data={"user": username, "password": password}, timeout=15)
        resp.raise_for_status()
        return s
    except Exception: sys.exit(3)
-/
def login (username password : Option String) (net : LoginNet) : LoginOutcome × List Nat :=
  if falsyEnv username || falsyEnv password then (.exitCode 2, [])
  else
    match net.req1 with
    | .error _ => (.exitCode 3, [1])
    | .ok _ =>
      match net.req2 with
      | .error _ => (.exitCode 3, [1, 2])
      | .ok status =>
        if raise_for_status_fails status then (.exitCode 3, [1, 2])
        else (.session, [1, 2])

/-- The source line `alphabet = "0123456789" + string.ascii_lowercase`. -/
def alphabet : List Char := "0123456789abcdefghijklmnopqrstuvwxyz".data

/-- The source line `terms` = `[''.join(p) for p in itertools.product(alphabet, repeat=2)]`:
`itertools.product` iterates the last position fastest, so the first
character varies slowest. -/
def terms : List String :=
  alphabet.flatMap (fun a => alphabet.map (fun b => String.mk [a, b]))

/-- The rank of a two-character term in Cartesian-product order. -/
def termIndex (s : String) : Nat :=
  match s.data with
  | [a, b] => 36 * alphabet.findIdx (fun c => c == a) + alphabet.findIdx (fun c => c == b)
  | _ => 0

/-- The full pipeline downstream of the network: merge the per-term results
(in processing order) into the catalog, enrich with the per-id resolved
prices, and sort as `save_json` does. -/
def finalOutput (fetch : String → String) (results : List (List RawItem)) : List Enriched :=
  save_json (enrich_with_prices fetch (collect_full_catalog results)).enriched

end Scraper

namespace PoolVariant

open Scraper

/-- The thread-pool variant's `collect_full_catalog` processes term results in
`as_completed` order: some permutation of the sequential processing order.
The merged dict and dedup logic are identical, so the output is
`Scraper.collect_full_catalog` applied to the permuted result list. -/
def collect_full_catalog (completionOrder : List (List RawItem)) : List Entry :=
  Scraper.collect_full_catalog completionOrder

/-- The `unique_ids` list built by the pool variant's `enrich_with_prices`:

    for product in catalog:
        pid = product["id"]
        if pid not in id_to_price:
            id_to_price[pid] = ""  # placeholder
            unique_ids.append(pid)
-/
def unique_ids (catalog : List Entry) : List String :=
  (catalog.foldl
    (fun acc e => if lookupAssoc acc.1 e.id = none then
        (acc.1 ++ [(e.id, "")], acc.2 ++ [e.id]) else acc)
    (([] : List (String × String)), ([] : List String))).2

/-- The price cache after the pool variant's parallel fetch phase: each unique
id is submitted to the pool exactly once and `id_to_price[pid] = future.result() or ""`.
The resulting mapping does not depend on completion order. -/
def id_to_price (fetch : String → String) (catalog : List Entry) : List (String × String) :=
  (unique_ids catalog).map (fun pid => (pid, if fetch pid = "" then "" else fetch pid))

/-- The pool variant's final pass: `price = id_to_price.get(pid, "")` and the
record is built exactly as in the sequential script. -/
def enrich_with_prices (fetch : String → String) (catalog : List Entry) : List Enriched :=
  catalog.map (fun e => mkRecord e ((lookupAssoc (id_to_price fetch catalog) e.id).getD ""))

/-- Path of the products file written by the pool variant's `save_json`
(`os.makedirs("data", exist_ok=True)`, then `open("data/products.json", "w")`). -/
def products_path : String := "data/products.json"

/-- Path of the date file written by the pool variant's `write_last_updated_file`. -/
def last_updated_path : String := "data/last_updated.txt"

/-- The pool variant creates its output directory (`os.makedirs("data", exist_ok=True)`)
in both `save_json` and `write_last_updated_file`. -/
def creates_output_dir : Bool := true

end PoolVariant

open Scraper

/-- C1, counterexample: the claim asserts that input `"SoloName"` yields
code `""`, but `_parse_code_and_name` returns the single segment as the code,
so `"SoloName"` yields code `"SoloName"` (and name `"SoloName"`). -/
theorem c1_counterexample_soloname :
    _parse_code_and_name "SoloName" ≠ ("", "SoloName") ∧
    _parse_code_and_name "SoloName" = ("SoloName", "SoloName") := by
  decide

/-- C1, amended: the code/name parser splits on `'/'`, trims each segment and
drops empty ones; zero segments give code `""` and name = trimmed original;
exactly one segment gives code = that segment and name = the full trimmed
original text; two or more give code = first segment and name = the rest
rejoined with `" / "`. `"7 / Blue Widget"` yields `("7", "Blue Widget")`,
`"SoloName"` yields code `"SoloName"` (not `""`) and name `"SoloName"`, and
`" A / B / C "` yields `("A", "B / C")`. -/
theorem c1_parse_code_and_name_cases (text : String) :
    segmentsOf text = ((pySplitSlash text).map pyStrip).filter (fun p => p != "") ∧
    (segmentsOf text = [] → _parse_code_and_name text = ("", pyStrip text)) ∧
    (∀ c, segmentsOf text = [c] → _parse_code_and_name text = (c, pyStrip text)) ∧
    (∀ c r rs, segmentsOf text = c :: r :: rs →
      _parse_code_and_name text = (c, joinSep (r :: rs))) ∧
    _parse_code_and_name "7 / Blue Widget" = ("7", "Blue Widget") ∧
    _parse_code_and_name "SoloName" = ("SoloName", "SoloName") ∧
    _parse_code_and_name " A / B / C " = ("A", "B / C") := by
  refine ⟨rfl, ?_, ?_, ?_, by decide, by decide, by decide⟩
  · intro h
    unfold _parse_code_and_name
    rw [h]
  · intro c h
    unfold _parse_code_and_name
    rw [h]
  · intro c r rs h
    unfold _parse_code_and_name
    rw [h]

/-- C1, witness: the amended theorem applied to the concrete input `" / "`,
which has zero non-empty segments. -/
theorem c1_witness :
    _parse_code_and_name " / " = ("", pyStrip " / ") :=
  (c1_parse_code_and_name_cases " / ").2.1 (by decide)

/-- Indexing a `flatMap` whose pieces all have length `n`. -/
theorem getD_flatMap_uniform {α β : Type} (f : α → List β) (n : Nat) :
    ∀ (l : List α) (i : Nat), i < l.length * n → (∀ a ∈ l, (f a).length = n) →
      ∀ (d : β) (cd : α),
      (l.flatMap f).getD i d = (f (l.getD (i / n) cd)).getD (i % n) d := by
  intro l
  induction l with
  | nil => intro i hi; simp at hi
  | cons a t ih =>
    intro i hi hlen d cd
    rw [List.flatMap_cons]
    by_cases hcase : i < n
    · rw [List.getD_append _ _ _ _ (by rw [hlen a (List.mem_cons_self a t)]; exact hcase)]
      rw [Nat.div_eq_of_lt hcase, Nat.mod_eq_of_lt hcase, List.getD_cons_zero]
    · push_neg at hcase
      rw [List.getD_append_right _ _ _ _ (by rw [hlen a (List.mem_cons_self a t)]; exact hcase)]
      rw [hlen a (List.mem_cons_self a t)]
      have hsplit : i < t.length * n + n := by
        have h' := hi
        rw [List.length_cons, Nat.succ_mul] at h'
        exact h'
      have hn : 0 < n := by
        rcases Nat.eq_zero_or_pos n with h0 | h0
        · subst h0; omega
        · exact h0
      have hi' : i - n < t.length * n := by omega
      rw [ih (i - n) hi' (fun a' ha' => hlen a' (List.mem_cons_of_mem _ ha')) d cd]
      obtain ⟨j, rfl⟩ := Nat.exists_eq_add_of_le hcase
      have hdiv : (n + j) / n = j / n + 1 := by
        rw [Nat.add_comm, Nat.add_div_right _ hn]
      have hmod : (n + j) % n = j % n := Nat.add_mod_left n j
      rw [Nat.add_sub_cancel_left, hdiv, hmod, List.getD_cons_succ]

/-- Inserting into the catalog preserves distinctness of its keys. -/
theorem insertItem_nodup (cat : List (String × String)) (item : RawItem)
    (h : cat.Nodup) : (insertItem cat item).Nodup := by
  by_cases hc : keyOf item ∉ cat ∧ (keyOf item).1 ≠ "" ∧ (keyOf item).2 ≠ ""
  · simp only [insertItem, if_pos hc]
    simpa [List.nodup_append] using ⟨h, fun hmem => hc.1 hmem⟩
  · simpa only [insertItem, if_neg hc] using h

/-- Folding the catalog insertion over any item list preserves key distinctness. -/
theorem foldl_insertItem_nodup (items : List RawItem) :
    ∀ cat : List (String × String), cat.Nodup → (items.foldl insertItem cat).Nodup := by
  induction items with
  | nil => intro cat h; simpa using h
  | cons item items ih =>
    intro cat h
    rw [List.foldl_cons]
    exact ih _ (insertItem_nodup cat item h)

/-- Membership after one catalog insertion. -/
theorem mem_insertItem (cat : List (String × String)) (item : RawItem) (k : String × String) :
    k ∈ insertItem cat item ↔
      k ∈ cat ∨ (keyOf item ∉ cat ∧ (keyOf item).1 ≠ "" ∧ (keyOf item).2 ≠ "" ∧ k = keyOf item) := by
  by_cases hc : keyOf item ∉ cat ∧ (keyOf item).1 ≠ "" ∧ (keyOf item).2 ≠ ""
  · simp only [insertItem, if_pos hc, List.mem_append, List.mem_singleton]
    tauto
  · simp only [insertItem, if_neg hc]
    constructor
    · exact fun h => Or.inl h
    · rintro (h | ⟨h1, h2, h3, rfl⟩)
      · exact h
      · exact absurd ⟨h1, h2, h3⟩ hc

/-- Membership in the folded catalog: a key is present iff it was present
initially, or it is the (trimmed, non-empty) key of some processed item. -/
theorem mem_foldl_insertItem (items : List RawItem) :
    ∀ (cat : List (String × String)) (k : String × String),
      k ∈ items.foldl insertItem cat ↔
        k ∈ cat ∨ (k.1 ≠ "" ∧ k.2 ≠ "" ∧ ∃ item ∈ items, keyOf item = k) := by
  induction items with
  | nil => intro cat k; simp
  | cons item items ih =>
    intro cat k
    rw [List.foldl_cons, ih, mem_insertItem]
    constructor
    · rintro ((h | ⟨hni, h1, h2, rfl⟩) | ⟨h1, h2, it, hit, rfl⟩)
      · exact Or.inl h
      · exact Or.inr ⟨h1, h2, item, List.mem_cons_self _ _, rfl⟩
      · exact Or.inr ⟨h1, h2, it, List.mem_cons_of_mem _ hit, rfl⟩
    · rintro (h | ⟨h1, h2, it, hit, rfl⟩)
      · exact Or.inl (Or.inl h)
      · rcases List.mem_cons.mp hit with rfl | hit'
        · by_cases hmem : keyOf it ∈ cat
          · exact Or.inl (Or.inl hmem)
          · exact Or.inl (Or.inr ⟨hmem, h1, h2, rfl⟩)
        · exact Or.inr ⟨h1, h2, it, hit', rfl⟩

/-- The catalog entries are their own keys. -/
theorem collect_map_key (results : List (List RawItem)) :
    (collect_full_catalog results).map (fun e => (e.id, e.text)) = collectKeys results := by
  simp [collect_full_catalog, List.map_map, Function.comp_def]

/-- C2: across the whole term enumeration the catalog holds at most one entry
per composite key `(trimmed id, trimmed text)`, a later occurrence of an
already-present key is ignored (first-seen-wins), and no entry has an empty
trimmed id or text. -/
theorem c2_catalog_dedup (results : List (List RawItem)) :
    ((collect_full_catalog results).map (fun e => (e.id, e.text))).Nodup ∧
    (∀ e ∈ collect_full_catalog results, e.id ≠ "" ∧ e.text ≠ "") ∧
    (∀ (cat : List (String × String)) (item : RawItem),
      keyOf item ∈ cat → insertItem cat item = cat) := by
  refine ⟨?_, ?_, ?_⟩
  · rw [collect_map_key]
    exact foldl_insertItem_nodup _ _ List.nodup_nil
  · intro e he
    simp only [collect_full_catalog, List.mem_map] at he
    obtain ⟨k, hk, rfl⟩ := he
    rcases (mem_foldl_insertItem _ _ _).mp hk with h | ⟨h1, h2, -⟩
    · simp at h
    · exact ⟨h1, h2⟩
  · intro cat item h
    simp [insertItem, h]

/-- C2, witness: a duplicated raw item and an item with blank text produce a
single-entry catalog; re-inserting a present key is a no-op. -/
theorem c2_witness :
    (Entry.mk "7" "ABC / Widget").id ≠ "" ∧
    insertItem [("7", "ABC / Widget")] ⟨" 7 ", "ABC / Widget"⟩ = [("7", "ABC / Widget")] :=
  ⟨((c2_catalog_dedup [[⟨"7", "ABC / Widget"⟩, ⟨"7", "ABC / Widget"⟩, ⟨" ", " "⟩]]).2.1
      ⟨"7", "ABC / Widget"⟩ (by decide)).1,
   (c2_catalog_dedup []).2.2 [("7", "ABC / Widget")] ⟨" 7 ", "ABC / Widget"⟩ (by decide)⟩

/-- C3: the enumerated search terms are exactly the two-character strings over
`0-9` then `a-z`, each exactly once (no duplicates), 1296 in total, in
Cartesian-product order with the first character varying slowest
(term `i` is `alphabet[i / 36]` followed by `alphabet[i % 36]`). -/
theorem c3_terms_enumeration :
    terms.length = 1296 ∧
    terms.Nodup ∧
    (∀ s, s ∈ terms ↔ ∃ a ∈ alphabet, ∃ b ∈ alphabet, s = String.mk [a, b]) ∧
    (∀ i, i < 1296 →
      terms.getD i "" = String.mk [alphabet.getD (i / 36) ' ', alphabet.getD (i % 36) ' ']) := by
  have halen : alphabet.length = 36 := rfl
  have hnodupA : alphabet.Nodup := by decide
  have hinner : ∀ a : Char, (alphabet.map (fun b => String.mk [a, b])).length = 36 := by
    intro a; rw [List.length_map, halen]
  refine ⟨?_, ?_, ?_, ?_⟩
  · rw [terms, List.length_flatMap]
    have hconst : List.map (List.length ∘ fun a => alphabet.map (fun b => String.mk [a, b])) alphabet
        = List.replicate 36 36 := by
      have : (List.length ∘ fun a : Char => alphabet.map (fun b => String.mk [a, b]))
          = Function.const Char 36 := funext fun a => hinner a
      rw [this, List.map_const, halen]
    rw [hconst, List.sum_replicate, smul_eq_mul]
  · rw [terms, List.nodup_flatMap]
    constructor
    · intro a _
      refine hnodupA.map (fun b1 b2 h => ?_)
      have hd : [a, b1] = [a, b2] := congrArg String.data h
      simpa using hd
    · refine List.Pairwise.imp ?_ hnodupA
      intro a a' hne s hs hs'
      simp only [List.mem_map] at hs hs'
      obtain ⟨b, -, rfl⟩ := hs
      obtain ⟨b', -, h⟩ := hs'
      have hd : [a', b'] = [a, b] := congrArg String.data h
      simp only [List.cons.injEq, and_true] at hd
      exact hne hd.1.symm
  · intro s
    rw [terms]
    simp only [List.mem_flatMap, List.mem_map]
    constructor
    · rintro ⟨a, ha, b, hb, rfl⟩
      exact ⟨a, ha, b, hb, rfl⟩
    · rintro ⟨a, ha, b, hb, rfl⟩
      exact ⟨a, ha, b, hb, rfl⟩
  · intro i hi
    rw [terms,
      getD_flatMap_uniform (fun a => alphabet.map (fun b => String.mk [a, b])) 36 alphabet i
        (by rw [halen]; exact hi) (fun a _ => hinner a) "" ' ']
    have h2 : i % 36 < alphabet.length := by
      rw [halen]; exact Nat.mod_lt _ (by norm_num)
    rw [List.getD_eq_getElem _ _ (by simpa using h2), List.getElem_map,
      List.getD_eq_getElem _ _ h2]

/-- C3, witness: term number 36 (0-based) is `"10"`, and `"aa"` occurs among
the terms. -/
theorem c3_witness :
    terms.getD 36 "" = "10" ∧ "aa" ∈ terms :=
  ⟨(c3_terms_enumeration.2.2.2 36 (by norm_num)).trans (by decide),
   (c3_terms_enumeration.2.2.1 "aa").mpr ⟨'a', by decide, 'a', by decide, by decide⟩⟩

/-- Looking up past an association list that misses the key. -/
theorem lookupAssoc_append_of_none (c₁ c₂ : List (String × String)) (x : String)
    (h : lookupAssoc c₁ x = none) :
    lookupAssoc (c₁ ++ c₂) x = lookupAssoc c₂ x := by
  induction c₁ with
  | nil => rfl
  | cons kv rest ih =>
    obtain ⟨k, v⟩ := kv
    by_cases hk : k = x
    · simp [lookupAssoc, hk] at h
    · simp only [lookupAssoc, if_neg hk] at h ⊢
      exact ih h

/-- Looking up in an extended association list that already has the key. -/
theorem lookupAssoc_append_of_some (c₁ c₂ : List (String × String)) (x : String) (v : String)
    (h : lookupAssoc c₁ x = some v) :
    lookupAssoc (c₁ ++ c₂) x = some v := by
  induction c₁ with
  | nil => simp [lookupAssoc] at h
  | cons kv rest ih =>
    obtain ⟨k, w⟩ := kv
    by_cases hk : k = x
    · simp only [lookupAssoc, if_pos hk] at h ⊢
      exact h
    · simp only [lookupAssoc, if_neg hk] at h ⊢
      exact ih h

/-- The price actually used in one loop iteration is always `fetch pid`, and
the step appends exactly one record; the cache/log grow only on a miss. -/
theorem enrichStep_eq (fetch : String → String) (st : EnrichState) (product : Entry)
    (hP : ∀ x v, lookupAssoc st.cache x = some v → v = fetch x) :
    enrichStep fetch st product =
      if lookupAssoc st.cache product.id = none then
        ⟨st.cache ++ [(product.id, fetch product.id)],
         st.enriched ++ [mkRecord product (fetch product.id)],
         st.fetchLog ++ [product.id]⟩
      else ⟨st.cache, st.enriched ++ [mkRecord product (fetch product.id)], st.fetchLog⟩ := by
  by_cases h : lookupAssoc st.cache product.id = none
  · have hl : lookupAssoc (st.cache ++ [(product.id, fetch product.id)]) product.id
        = some (fetch product.id) := by
      rw [lookupAssoc_append_of_none _ _ _ h]
      simp [lookupAssoc]
    simp only [enrichStep, if_pos h, hl]
    simp [h]
  · obtain ⟨v, hv⟩ := Option.ne_none_iff_exists.mp h
    have hveq : v = fetch product.id := hP _ _ hv.symm
    simp only [enrichStep, if_neg h]
    rw [← hv]
    simp [hveq]

/-- Characterization of the sequential enrichment loop from any well-formed
starting state: the output appends one record per catalog entry whose price
is `fetch` of its id, the fetch log stays duplicate-free, and the ids logged
are the starting ones plus the ids occurring in the catalog. -/
theorem enrich_fold_spec (fetch : String → String) (catalog : List Entry) :
    ∀ st : EnrichState,
      (∀ x v, lookupAssoc st.cache x = some v → v = fetch x) →
      st.fetchLog.Nodup →
      (∀ x, x ∈ st.fetchLog ↔ (lookupAssoc st.cache x).isSome) →
      (catalog.foldl (enrichStep fetch) st).enriched
          = st.enriched ++ catalog.map (fun e => mkRecord e (fetch e.id)) ∧
      (catalog.foldl (enrichStep fetch) st).fetchLog.Nodup ∧
      (∀ x, x ∈ (catalog.foldl (enrichStep fetch) st).fetchLog ↔
          (lookupAssoc st.cache x).isSome ∨ ∃ e ∈ catalog, e.id = x) := by
  induction catalog with
  | nil =>
    intro st hP hN hQ
    refine ⟨by simp, hN, fun x => ?_⟩
    simp [← hQ x]
  | cons product rest ih =>
    intro st hP hN hQ
    rw [List.foldl_cons, enrichStep_eq fetch st product hP]
    by_cases h : lookupAssoc st.cache product.id = none
    · rw [if_pos h]
      have hP1 : ∀ x v,
          lookupAssoc (st.cache ++ [(product.id, fetch product.id)]) x = some v →
            v = fetch x := by
        intro x v hv
        rcases hcx : lookupAssoc st.cache x with _ | w
        · rw [lookupAssoc_append_of_none _ _ _ hcx] at hv
          simp only [lookupAssoc] at hv
          by_cases hpid : product.id = x
          · rw [if_pos hpid] at hv
            cases hv
            rw [hpid]
          · rw [if_neg hpid] at hv
            cases hv
        · rw [lookupAssoc_append_of_some _ _ _ _ hcx] at hv
          injection hv with hvw
          rw [← hvw]
          exact hP x w hcx
      have hpidlog : product.id ∉ st.fetchLog := by
        intro hmem
        have h2 := (hQ product.id).mp hmem
        rw [h] at h2
        simp at h2
      have hN1 : (st.fetchLog ++ [product.id]).Nodup := by
        simpa [List.nodup_append] using ⟨hN, hpidlog⟩
      have hQ1 : ∀ x, x ∈ st.fetchLog ++ [product.id] ↔
          (lookupAssoc (st.cache ++ [(product.id, fetch product.id)]) x).isSome := by
        intro x
        rw [List.mem_append, List.mem_singleton]
        rcases hcx : lookupAssoc st.cache x with _ | w
        · rw [lookupAssoc_append_of_none _ _ _ hcx]
          have hnx : x ∉ st.fetchLog := by
            intro hmem
            have h2 := (hQ x).mp hmem
            rw [hcx] at h2
            simp at h2
          simp only [lookupAssoc]
          by_cases hpid : product.id = x
          · rw [if_pos hpid]
            constructor
            · intro _
              rfl
            · intro _
              exact Or.inr hpid.symm
          · rw [if_neg hpid]
            constructor
            · rintro (hmem | heq)
              · exact absurd hmem hnx
              · exact absurd heq.symm hpid
            · intro hcontra
              simp at hcontra
        · rw [lookupAssoc_append_of_some _ _ _ _ hcx]
          constructor
          · intro _
            rfl
          · intro _
            exact Or.inl ((hQ x).mpr (by simp [hcx]))
      obtain ⟨he, hn, hq⟩ := ih
        ⟨st.cache ++ [(product.id, fetch product.id)],
         st.enriched ++ [mkRecord product (fetch product.id)],
         st.fetchLog ++ [product.id]⟩ hP1 hN1 hQ1
      refine ⟨?_, hn, ?_⟩
      · rw [he]
        simp
      · intro x
        rw [hq x]
        constructor
        · rintro (hx | ⟨e, he1, hid⟩)
          · rcases hcx : lookupAssoc st.cache x with _ | w
            · rw [lookupAssoc_append_of_none _ _ _ hcx] at hx
              simp only [lookupAssoc] at hx
              by_cases hpid : product.id = x
              · exact Or.inr ⟨product, List.mem_cons_self _ _, hpid⟩
              · rw [if_neg hpid] at hx
                simp at hx
            · exact Or.inl (by simp [hcx])
          · exact Or.inr ⟨e, List.mem_cons_of_mem _ he1, hid⟩
        · rintro (hx | ⟨e, he1, hid⟩)
          · left
            obtain ⟨w, hw⟩ := Option.isSome_iff_exists.mp hx
            rw [lookupAssoc_append_of_some _ _ _ _ hw]
            rfl
          · rcases List.mem_cons.mp he1 with rfl | he2
            · left
              rw [lookupAssoc_append_of_none _ _ _ (hid ▸ h)]
              simp only [lookupAssoc]
              rw [if_pos hid]
              rfl
            · exact Or.inr ⟨e, he2, hid⟩
    · rw [if_neg h]
      obtain ⟨he, hn, hq⟩ := ih
        ⟨st.cache, st.enriched ++ [mkRecord product (fetch product.id)], st.fetchLog⟩ hP hN hQ
      refine ⟨?_, hn, ?_⟩
      · rw [he]
        simp
      · intro x
        rw [hq x]
        constructor
        · rintro (hx | ⟨e, he1, hid⟩)
          · exact Or.inl hx
          · exact Or.inr ⟨e, List.mem_cons_of_mem _ he1, hid⟩
        · rintro (hx | ⟨e, he1, hid⟩)
          · exact Or.inl hx
          · rcases List.mem_cons.mp he1 with rfl | he2
            · left
              rw [← hid]
              exact Option.ne_none_iff_isSome.mp h
            · exact Or.inr ⟨e, he2, hid⟩

/-- The sequential enrichment appends exactly one record per catalog entry,
whose price is the fetched price of that entry's id. -/
theorem enrich_enriched_eq (fetch : String → String) (catalog : List Entry) :
    (enrich_with_prices fetch catalog).enriched
      = catalog.map (fun e => mkRecord e (fetch e.id)) := by
  have h := enrich_fold_spec fetch catalog ⟨[], [], []⟩
    (by intro x v hv; simp [lookupAssoc] at hv)
    List.nodup_nil
    (by intro x; simp [lookupAssoc])
  simpa using h.1

/-- The sequential enrichment's fetch log: duplicate-free and containing
exactly the distinct ids of the catalog. -/
theorem enrich_log_spec (fetch : String → String) (catalog : List Entry) :
    (enrich_with_prices fetch catalog).fetchLog.Nodup ∧
    (∀ x, x ∈ (enrich_with_prices fetch catalog).fetchLog ↔ ∃ e ∈ catalog, e.id = x) := by
  have h := enrich_fold_spec fetch catalog ⟨[], [], []⟩
    (by intro x v hv; simp [lookupAssoc] at hv)
    List.nodup_nil
    (by intro x; simp [lookupAssoc])
  refine ⟨h.2.1, fun x => ?_⟩
  have h3 := h.2.2 x
  simpa [lookupAssoc] using h3

/-- Indexing a mapped list below its length. -/
theorem getD_map_of_lt {α β : Type} (f : α → β) (l : List α) (i : Nat) (h : i < l.length)
    (d : β) (d1 : α) : (l.map f).getD i d = f (l.getD i d1) := by
  rw [List.getD_eq_getElem _ _ (by simpa using h), List.getElem_map, List.getD_eq_getElem _ _ h]

/-- The pool variant's `unique_ids` accumulator evolves exactly like the
sequential fetch log when every cached value is the empty string. -/
theorem unique_ids_foldl_eq (catalog : List Entry) :
    ∀ (cache : List (String × String)) (log : List String) (enr : List Enriched),
      (∀ x v, lookupAssoc cache x = some v → v = "") →
      (catalog.foldl
        (fun acc e => if lookupAssoc acc.1 e.id = none then
            (acc.1 ++ [(e.id, "")], acc.2 ++ [e.id]) else acc)
        (cache, log)).2
        = (catalog.foldl (enrichStep (fun _ => "")) ⟨cache, enr, log⟩).fetchLog := by
  induction catalog with
  | nil => intro cache log enr _; rfl
  | cons e rest ih =>
    intro cache log enr hP
    rw [List.foldl_cons, List.foldl_cons,
      enrichStep_eq (fun _ => "") ⟨cache, enr, log⟩ e hP]
    by_cases h : lookupAssoc cache e.id = none
    · rw [if_pos h]
      have hP1 : ∀ x v, lookupAssoc (cache ++ [(e.id, "")]) x = some v → v = "" := by
        intro x v hv
        rcases hcx : lookupAssoc cache x with _ | w
        · rw [lookupAssoc_append_of_none _ _ _ hcx] at hv
          simp only [lookupAssoc] at hv
          by_cases hpid : e.id = x
          · rw [if_pos hpid] at hv
            injection hv with hv1
            exact hv1.symm
          · rw [if_neg hpid] at hv
            cases hv
        · rw [lookupAssoc_append_of_some _ _ _ _ hcx] at hv
          injection hv with hv1
          rw [← hv1]
          exact hP x w hcx
      have := ih (cache ++ [(e.id, "")]) (log ++ [e.id])
        (enr ++ [mkRecord e ""]) hP1
      simpa [h] using this
    · rw [if_neg h]
      have := ih cache log (enr ++ [mkRecord e ""]) hP
      simpa [h] using this

/-- The pool variant's `unique_ids` equals the sequential fetch log (for the constant-empty fetch). -/
theorem unique_ids_eq_fetchLog (catalog : List Entry) :
    PoolVariant.unique_ids catalog
      = (enrich_with_prices (fun _ => "") catalog).fetchLog := by
  rw [PoolVariant.unique_ids, enrich_with_prices]
  exact unique_ids_foldl_eq catalog [] [] [] (by intro x v hv; simp [lookupAssoc] at hv)

/-- C4: in both scripts, the price fetch is invoked at most once per distinct
product id (the sequential fetch log and the pool variant's `unique_ids` are
duplicate-free and contain exactly the catalog's distinct ids), and enriched
records whose catalog entries share an id receive the same marketing price. -/
theorem c4_price_per_id (fetch : String → String) (catalog : List Entry) :
    (enrich_with_prices fetch catalog).fetchLog.Nodup ∧
    (∀ pid, pid ∈ (enrich_with_prices fetch catalog).fetchLog ↔ ∃ e ∈ catalog, e.id = pid) ∧
    (∀ i j, i < catalog.length → j < catalog.length →
      (catalog.getD i default).id = (catalog.getD j default).id →
      ((enrich_with_prices fetch catalog).enriched.getD i default).marketing_price
        = ((enrich_with_prices fetch catalog).enriched.getD j default).marketing_price) ∧
    (PoolVariant.unique_ids catalog).Nodup ∧
    (∀ pid, pid ∈ PoolVariant.unique_ids catalog ↔ ∃ e ∈ catalog, e.id = pid) ∧
    (∀ i j, i < catalog.length → j < catalog.length →
      (catalog.getD i default).id = (catalog.getD j default).id →
      ((PoolVariant.enrich_with_prices fetch catalog).getD i default).marketing_price
        = ((PoolVariant.enrich_with_prices fetch catalog).getD j default).marketing_price) := by
  have hlog := enrich_log_spec fetch catalog
  have hmap := enrich_enriched_eq fetch catalog
  have hpool := unique_ids_eq_fetchLog catalog
  have hlog0 := enrich_log_spec (fun _ => "") catalog
  refine ⟨hlog.1, hlog.2, ?_, ?_, ?_, ?_⟩
  · intro i j hi hj hij
    rw [hmap, getD_map_of_lt _ _ _ hi _ default, getD_map_of_lt _ _ _ hj _ default]
    simp only [mkRecord]
    rw [hij]
  · rw [hpool]
    exact hlog0.1
  · intro pid
    rw [hpool]
    exact hlog0.2 pid
  · intro i j hi hj hij
    rw [PoolVariant.enrich_with_prices,
      getD_map_of_lt _ _ _ hi _ default, getD_map_of_lt _ _ _ hj _ default]
    simp only [mkRecord]
    rw [hij]

/-- C4, witness: two catalog entries sharing id `"42"` receive the same
resolved price, and id `"42"` is fetched (appears in the fetch log, which is
duplicate-free by the theorem). -/
theorem c4_witness :
    ((enrich_with_prices (fun _ => "9.99") [⟨"42", "A"⟩, ⟨"42", "B"⟩]).enriched.getD 0
        default).marketing_price
      = ((enrich_with_prices (fun _ => "9.99") [⟨"42", "A"⟩, ⟨"42", "B"⟩]).enriched.getD 1
        default).marketing_price ∧
    "42" ∈ (enrich_with_prices (fun _ => "9.99") [⟨"42", "A"⟩, ⟨"42", "B"⟩]).fetchLog :=
  ⟨(c4_price_per_id (fun _ => "9.99") [⟨"42", "A"⟩, ⟨"42", "B"⟩]).2.2.1 0 1
      (by decide) (by decide) (by decide),
   ((c4_price_per_id (fun _ => "9.99") [⟨"42", "A"⟩, ⟨"42", "B"⟩]).2.1 "42").mpr
      ⟨⟨"42", "A"⟩, by decide, rfl⟩⟩

/-- C7: when the price request for a product id raises or returns a non-200
status, that product's enriched record carries the empty marketing price, and
enrichment still produces one record per catalog entry (no abort). -/
theorem c7_failed_fetch_empty (net : String → FetchOutcome) (catalog : List Entry) (i : Nat)
    (hi : i < catalog.length)
    (hfail : net (catalog.getD i default).id = FetchOutcome.err ∨
      ∃ status body, net (catalog.getD i default).id = FetchOutcome.resp status body ∧
        status ≠ 200) :
    ((enrich_with_prices (fun pid => fetch_price (net pid)) catalog).enriched.getD i
        default).marketing_price = "" ∧
    (enrich_with_prices (fun pid => fetch_price (net pid)) catalog).enriched.length
      = catalog.length := by
  have hmap := enrich_enriched_eq (fun pid => fetch_price (net pid)) catalog
  constructor
  · rw [hmap, getD_map_of_lt _ _ _ hi _ default]
    simp only [mkRecord]
    rcases hfail with h | ⟨status, body, h, hne⟩
    · rw [h]
      rfl
    · rw [h]
      simp [fetch_price, hne]
  · rw [hmap, List.length_map]

/-- C7, witness: a raising price fetch yields an empty price for that product
while the other product is still enriched. -/
theorem c7_witness :
    ((enrich_with_prices (fun _ => fetch_price FetchOutcome.err) [⟨"1", "A"⟩, ⟨"2", "B"⟩]).enriched.getD 0
        default).marketing_price = "" ∧
    (enrich_with_prices (fun _ => fetch_price FetchOutcome.err) [⟨"1", "A"⟩, ⟨"2", "B"⟩]).enriched.length = 2 :=
  c7_failed_fetch_empty (fun _ => FetchOutcome.err) [⟨"1", "A"⟩, ⟨"2", "B"⟩] 0
    (by decide) (Or.inl rfl)

/-- C6: `login` exits with code 2 attempting no network request whenever
either credential is unset or empty; with credentials present and the first
request succeeding, it exits with code 3 when the second request raises or
returns a 4xx/5xx status, and returns a session otherwise. (Exit code 0 is
success elsewhere; 2 = missing credentials, 3 = login failure.) -/
theorem c6_login_exit_codes (username password : Option String) (net : LoginNet) :
    ((falsyEnv username || falsyEnv password) = true →
      login username password net = (LoginOutcome.exitCode 2, [])) ∧
    ((falsyEnv username || falsyEnv password) = false →
      net.req1 = Except.ok () →
      (net.req2 = Except.error () ∨
        ∃ status, net.req2 = Except.ok status ∧ raise_for_status_fails status = true) →
      login username password net = (LoginOutcome.exitCode 3, [1, 2])) ∧
    ((falsyEnv username || falsyEnv password) = false →
      net.req1 = Except.ok () →
      ∀ status, net.req2 = Except.ok status → raise_for_status_fails status = false →
      login username password net = (LoginOutcome.session, [1, 2])) := by
  refine ⟨?_, ?_, ?_⟩
  · intro hcred
    rw [login, if_pos hcred]
  · intro hcred h1 h2
    rw [login, if_neg (by rw [hcred]; simp), h1]
    rcases h2 with h2 | ⟨status, h2, hs⟩
    · rw [h2]
    · rw [h2]
      simp [hs]
  · intro hcred h1 status h2 hs
    rw [login, if_neg (by rw [hcred]; simp), h1, h2]
    simp [hs]

/-- C6, witness: an unset username exits with code 2 and an empty request log;
with credentials present, a 403 on the second request exits with code 3. -/
theorem c6_witness :
    login none (some "pw") ⟨Except.ok (), Except.ok 200⟩ = (LoginOutcome.exitCode 2, []) ∧
    login (some "u") (some "pw") ⟨Except.ok (), Except.ok 403⟩
      = (LoginOutcome.exitCode 3, [1, 2]) :=
  ⟨(c6_login_exit_codes none (some "pw") ⟨Except.ok (), Except.ok 200⟩).1 (by decide),
   (c6_login_exit_codes (some "u") (some "pw") ⟨Except.ok (), Except.ok 403⟩).2.1 (by decide)
      rfl (Or.inr ⟨403, rfl, by decide⟩)⟩

/-- C10: with credentials present, an exception on the first login request
also terminates with exit code 3, and the second request is never attempted
(the request log is exactly `[1]`). -/
theorem c10_first_request_failure (username password : Option String) (net : LoginNet)
    (hcred : (falsyEnv username || falsyEnv password) = false)
    (h1 : net.req1 = Except.error ()) :
    login username password net = (LoginOutcome.exitCode 3, [1]) ∧
    2 ∉ (login username password net).2 := by
  have : login username password net = (LoginOutcome.exitCode 3, [1]) := by
    rw [login, if_neg (by rw [hcred]; simp), h1]
  refine ⟨this, ?_⟩
  rw [this]
  simp

/-- C10, witness: concrete credentials with a raising first request. -/
theorem c10_witness :
    login (some "u") (some "pw") ⟨Except.error (), Except.ok 200⟩
      = (LoginOutcome.exitCode 3, [1]) :=
  (c10_first_request_failure (some "u") (some "pw") ⟨Except.error (), Except.ok 200⟩
    (by decide) rfl).1

/-- C8, counterexample: the top-level script writes `products.json` and
`last_updated.txt` with no directory component (directly into the working
directory) and never creates an output directory, contradicting the claim
that both output files go into a dedicated location distinct from the
working directory. -/
theorem c8_counterexample :
    inDedicatedDir Scraper.products_path = false ∧
    inDedicatedDir Scraper.last_updated_path = false ∧
    Scraper.creates_output_dir = false := by
  decide

/-- C8, amended: the thread-pool variant writes both output files into the
dedicated `data/` subdirectory (the same one for both, created if absent via
`os.makedirs(..., exist_ok=True)`), while the top-level sequential script
writes both files directly into the working directory; files are opened in
mode `"w"`, overwriting existing ones. -/
theorem c8_output_location :
    inDedicatedDir PoolVariant.products_path = true ∧
    inDedicatedDir PoolVariant.last_updated_path = true ∧
    PoolVariant.creates_output_dir = true ∧
    PoolVariant.products_path.data.takeWhile (fun c => c != '/')
      = "data".data ∧
    PoolVariant.last_updated_path.data.takeWhile (fun c => c != '/')
      = "data".data ∧
    inDedicatedDir Scraper.products_path = false ∧
    inDedicatedDir Scraper.last_updated_path = false ∧
    Scraper.creates_output_dir = false := by
  decide

/-- Characterization: `charLt` decides the code-point order. -/
theorem charLt_iff (a b : Char) : charLt a b = true ↔ a.toNat < b.toNat := by
  simp [charLt]

/-- Totality of `leChars`. -/
theorem leChars_total (a : List Char) : ∀ b, (leChars a b || leChars b a) = true := by
  induction a with
  | nil => intro b; simp [leChars]
  | cons x xs ih =>
    intro b
    cases b with
    | nil => simp [leChars]
    | cons y ys =>
      by_cases h1 : charLt x y
      · simp [leChars, h1]
      · by_cases h2 : charLt y x
        · simp [leChars, h1, h2]
        · simp [leChars, h1, h2, ih ys]

/-- Reflexivity of `leChars`. -/
theorem leChars_refl (a : List Char) : leChars a a = true := by
  have h := leChars_total a a
  simpa using h

/-- Transitivity of `leChars`. -/
theorem leChars_trans (a : List Char) :
    ∀ b c, leChars a b = true → leChars b c = true → leChars a c = true := by
  induction a with
  | nil => intro b c _ _; simp [leChars]
  | cons x xs ih =>
    intro b c hab hbc
    cases b with
    | nil => simp [leChars] at hab
    | cons y ys =>
      cases c with
      | nil => simp [leChars] at hbc
      | cons z zs =>
        simp only [leChars] at hab hbc ⊢
        by_cases h1 : charLt x y = true
        · by_cases h2 : charLt y z = true
          · have h3 : charLt x z = true :=
              (charLt_iff x z).mpr
                (lt_trans ((charLt_iff x y).mp h1) ((charLt_iff y z).mp h2))
            rw [if_pos h3]
          · rw [if_neg h2] at hbc
            by_cases h4 : charLt z y = true
            · rw [if_pos h4] at hbc
              cases hbc
            · have n2 : ¬ y.toNat < z.toNat := fun hlt => h2 ((charLt_iff y z).mpr hlt)
              have n4 : ¬ z.toNat < y.toNat := fun hlt => h4 ((charLt_iff z y).mpr hlt)
              have m1 : x.toNat < y.toNat := (charLt_iff x y).mp h1
              have h3 : charLt x z = true := (charLt_iff x z).mpr (by omega)
              rw [if_pos h3]
        · rw [if_neg h1] at hab
          by_cases h5 : charLt y x = true
          · rw [if_pos h5] at hab
            cases hab
          · rw [if_neg h5] at hab
            have n1 : ¬ x.toNat < y.toNat := fun hlt => h1 ((charLt_iff x y).mpr hlt)
            have n5 : ¬ y.toNat < x.toNat := fun hlt => h5 ((charLt_iff y x).mpr hlt)
            by_cases h2 : charLt y z = true
            · have m2 : y.toNat < z.toNat := (charLt_iff y z).mp h2
              have h3 : charLt x z = true := (charLt_iff x z).mpr (by omega)
              rw [if_pos h3]
            · rw [if_neg h2] at hbc
              by_cases h4 : charLt z y = true
              · rw [if_pos h4] at hbc
                cases hbc
              · rw [if_neg h4] at hbc
                have n2 : ¬ y.toNat < z.toNat := fun hlt => h2 ((charLt_iff y z).mpr hlt)
                have n4 : ¬ z.toNat < y.toNat := fun hlt => h4 ((charLt_iff z y).mpr hlt)
                have h3 : ¬ charLt x z = true := fun hlt => by
                  have := (charLt_iff x z).mp hlt
                  omega
                have h6 : ¬ charLt z x = true := fun hlt => by
                  have := (charLt_iff z x).mp hlt
                  omega
                rw [if_neg h3, if_neg h6]
                exact ih ys zs hab hbc

/-- Antisymmetry of `leChars`. -/
theorem leChars_antisymm (a : List Char) :
    ∀ b, leChars a b = true → leChars b a = true → a = b := by
  induction a with
  | nil =>
    intro b _ hba
    cases b with
    | nil => rfl
    | cons y ys => simp [leChars] at hba
  | cons x xs ih =>
    intro b hab hba
    cases b with
    | nil => simp [leChars] at hab
    | cons y ys =>
      simp only [leChars] at hab hba
      by_cases h1 : charLt x y = true
      · have m1 : x.toNat < y.toNat := (charLt_iff x y).mp h1
        have h5 : charLt y x = true → False := fun h => by
          have := (charLt_iff y x).mp h
          omega
        rw [if_neg (fun h => h5 h), if_pos h1] at hba
        cases hba
      · rw [if_neg h1] at hab
        by_cases h5 : charLt y x = true
        · rw [if_pos h5] at hab
          cases hab
        · rw [if_neg h5] at hab
          rw [if_neg h5, if_neg h1] at hba
          have n1 : ¬ x.toNat < y.toNat := fun hlt => h1 ((charLt_iff x y).mpr hlt)
          have n5 : ¬ y.toNat < x.toNat := fun hlt => h5 ((charLt_iff y x).mpr hlt)
          have hxy : x = y := by
            have hval : x.toNat = y.toNat := by omega
            exact StrictMono.injective (f := Char.toNat) (fun a b h => h) hval
          rw [hxy, ih ys hab hba]

/-- Strict comparison is the negation of the reverse weak comparison. -/
theorem ltChars_eq_not_leChars (a : List Char) :
    ∀ b, ltChars a b = !leChars b a := by
  induction a with
  | nil =>
    intro b
    cases b with
    | nil => rfl
    | cons y ys => rfl
  | cons x xs ih =>
    intro b
    cases b with
    | nil => rfl
    | cons y ys =>
      simp only [ltChars, leChars]
      by_cases h1 : charLt x y = true
      · have m1 : x.toNat < y.toNat := (charLt_iff x y).mp h1
        have h5 : ¬ charLt y x = true := fun h => by
          have := (charLt_iff y x).mp h
          omega
        rw [if_pos h1, if_neg h5, if_pos h1]
        rfl
      · rw [if_neg h1]
        by_cases h5 : charLt y x = true
        · rw [if_pos h5, if_pos h5]
          rfl
        · rw [if_neg h5, if_neg h5, if_neg h1]
          exact ih ys

/-- Unfolding `keyLE` into its two disjuncts. -/
theorem keyLE_cases (a b : List Char × List Char) :
    keyLE a b = true ↔
      ltChars a.1 b.1 = true ∨ (a.1 = b.1 ∧ leChars a.2 b.2 = true) := by
  simp [keyLE, Bool.or_eq_true, Bool.and_eq_true, beq_iff_eq]

/-- Totality of `keyLE`. -/
theorem keyLE_total (a b : List Char × List Char) : (keyLE a b || keyLE b a) = true := by
  rw [Bool.or_eq_true, keyLE_cases, keyLE_cases]
  by_cases he : a.1 = b.1
  · have h2 := leChars_total a.2 b.2
    rw [Bool.or_eq_true] at h2
    rcases h2 with h2 | h2
    · exact Or.inl (Or.inr ⟨he, h2⟩)
    · exact Or.inr (Or.inr ⟨he.symm, h2⟩)
  · have h1 := leChars_total a.1 b.1
    rw [Bool.or_eq_true] at h1
    by_cases hba : leChars b.1 a.1 = true
    · by_cases hab : leChars a.1 b.1 = true
      · exact absurd (leChars_antisymm a.1 b.1 hab hba) he
      · have : ltChars b.1 a.1 = true := by
          rw [ltChars_eq_not_leChars]
          simp [hab]
        exact Or.inr (Or.inl this)
    · have : ltChars a.1 b.1 = true := by
        rw [ltChars_eq_not_leChars]
        simp [hba]
      exact Or.inl (Or.inl this)

/-- Strict `ltChars` transitivity (via the `leChars` lemmas). -/
theorem ltChars_trans (a b c : List Char)
    (hab : ltChars a b = true) (hbc : ltChars b c = true) : ltChars a c = true := by
  rw [ltChars_eq_not_leChars] at hab hbc ⊢
  simp only [Bool.not_eq_true'] at hab hbc ⊢
  by_cases hca : leChars c a = true
  · have h1 := leChars_total a b
    rw [Bool.or_eq_true] at h1
    rcases h1 with h1 | h1
    · have := leChars_trans c a b hca h1
      rw [this] at hbc
      cases hbc
    · rw [h1] at hab
      cases hab
  · simp [hca]

/-- Transitivity of `keyLE`. -/
theorem keyLE_trans (a b c : List Char × List Char)
    (hab : keyLE a b = true) (hbc : keyLE b c = true) : keyLE a c = true := by
  rw [keyLE_cases] at hab hbc ⊢
  rcases hab with h1 | ⟨he1, h1⟩
  · rcases hbc with h2 | ⟨he2, h2⟩
    · exact Or.inl (ltChars_trans _ _ _ h1 h2)
    · exact Or.inl (he2 ▸ h1)
  · rcases hbc with h2 | ⟨he2, h2⟩
    · exact Or.inl (he1 ▸ h2)
    · exact Or.inr ⟨he1.trans he2, leChars_trans _ _ _ h1 h2⟩

/-- Antisymmetry of `keyLE`. -/
theorem keyLE_antisymm (a b : List Char × List Char)
    (hab : keyLE a b = true) (hba : keyLE b a = true) : a = b := by
  rw [keyLE_cases] at hab hba
  have hlt_irrefl : ∀ l : List Char, ltChars l l = true → False := by
    intro l h
    rw [ltChars_eq_not_leChars, leChars_refl] at h
    cases h
  rcases hab with h1 | ⟨he1, h1⟩
  · rcases hba with h2 | ⟨he2, h2⟩
    · exact absurd (ltChars_trans _ _ _ h1 h2) (fun h => hlt_irrefl _ h)
    · exact absurd (he2 ▸ h1) (fun h => hlt_irrefl _ h)
  · rcases hba with h2 | ⟨he2, h2⟩
    · exact absurd (he1 ▸ h2) (fun h => hlt_irrefl _ h)
    · have hsnd := leChars_antisymm a.2 b.2 h1 h2
      exact Prod.ext he1 hsnd

/-- Transitivity of `prodLe`. -/
theorem prodLe_trans (a b c : Enriched)
    (hab : prodLe a b = true) (hbc : prodLe b c = true) : prodLe a c = true :=
  keyLE_trans _ _ _ hab hbc

/-- Totality of `prodLe`. -/
theorem prodLe_total (a b : Enriched) : (prodLe a b || prodLe b a) = true :=
  keyLE_total _ _

/-- C5: `save_json` returns a permutation of its input that is sorted by the
key `(product_name, product_code)` under lexicographic string comparison; the
sort is stable (any key-sorted sublist of the input is a sublist of the
output, so equal-key records keep their relative order); and the spec's
example sorts as `Apple/1, Apple/2, Banana/1`. -/
theorem c5_save_json_sorted (products : List Enriched) :
    (save_json products).Perm products ∧
    List.Pairwise (fun a b => prodLe a b = true) (save_json products) ∧
    (∀ c : List Enriched, List.Pairwise (fun a b => prodLe a b = true) c →
      c.Sublist products → c.Sublist (save_json products)) ∧
    save_json [⟨"Banana", "1", ""⟩, ⟨"Apple", "2", ""⟩, ⟨"Apple", "1", ""⟩]
      = [⟨"Apple", "1", ""⟩, ⟨"Apple", "2", ""⟩, ⟨"Banana", "1", ""⟩] := by
  refine ⟨List.mergeSort_perm products prodLe,
    List.sorted_mergeSort prodLe_trans prodLe_total products,
    fun c hc hsub => List.sublist_mergeSort prodLe_trans prodLe_total hc hsub, ?_⟩
  have e1 : prodLe ⟨"Banana", "1", ""⟩ ⟨"Apple", "2", ""⟩ = false := by decide
  have e2 : prodLe ⟨"Banana", "1", ""⟩ ⟨"Apple", "1", ""⟩ = false := by decide
  have e3 : prodLe ⟨"Apple", "2", ""⟩ ⟨"Apple", "1", ""⟩ = false := by decide
  have e4 : prodLe ⟨"Apple", "2", ""⟩ ⟨"Banana", "1", ""⟩ = true := by decide
  have e5 : prodLe ⟨"Apple", "1", ""⟩ ⟨"Banana", "1", ""⟩ = true := by decide
  have e6 : prodLe ⟨"Apple", "1", ""⟩ ⟨"Apple", "2", ""⟩ = true := by decide
  simp [save_json, List.mergeSort, e1, e2, e3, e4, e5, e6]

/-- C5, witness: the sorted output of the example list is a permutation of it,
and the sorted singleton `[Banana/1]` (a sublist of the input) stays a
sublist of the output (stability applied at a concrete input). -/
theorem c5_witness :
    (save_json [⟨"Banana", "1", ""⟩, ⟨"Apple", "2", ""⟩, ⟨"Apple", "1", ""⟩]).Perm
      [⟨"Banana", "1", ""⟩, ⟨"Apple", "2", ""⟩, ⟨"Apple", "1", ""⟩] ∧
    [(⟨"Banana", "1", ""⟩ : Enriched)].Sublist
      (save_json [⟨"Banana", "1", ""⟩, ⟨"Apple", "2", ""⟩, ⟨"Apple", "1", ""⟩]) :=
  ⟨(c5_save_json_sorted [⟨"Banana", "1", ""⟩, ⟨"Apple", "2", ""⟩, ⟨"Apple", "1", ""⟩]).1,
   (c5_save_json_sorted [⟨"Banana", "1", ""⟩, ⟨"Apple", "2", ""⟩, ⟨"Apple", "1", ""⟩]).2.2.1
     [⟨"Banana", "1", ""⟩] (List.pairwise_singleton _ _) (by decide)⟩

/-- The catalog key set is independent of the order in which term results are
processed: a permuted completion order yields a permuted key list. -/
theorem collectKeys_perm (results results2 : List (List RawItem))
    (h : results2.Perm results) :
    (collectKeys results2).Perm (collectKeys results) := by
  rw [collectKeys, collectKeys,
    List.perm_ext_iff_of_nodup
      (foldl_insertItem_nodup _ _ List.nodup_nil)
      (foldl_insertItem_nodup _ _ List.nodup_nil)]
  intro k
  rw [mem_foldl_insertItem, mem_foldl_insertItem]
  simp only [List.not_mem_nil, false_or]
  constructor
  · rintro ⟨h1, h2, it, hit, rfl⟩
    obtain ⟨l, hl, hil⟩ := List.mem_flatten.mp hit
    exact ⟨h1, h2, it, List.mem_flatten.mpr ⟨l, h.mem_iff.mp hl, hil⟩, rfl⟩
  · rintro ⟨h1, h2, it, hit, rfl⟩
    obtain ⟨l, hl, hil⟩ := List.mem_flatten.mp hit
    exact ⟨h1, h2, it, List.mem_flatten.mpr ⟨l, h.mem_iff.mpr hl, hil⟩, rfl⟩

/-- A permuted completion order yields a permuted catalog. -/
theorem collect_full_catalog_perm (results results2 : List (List RawItem))
    (h : results2.Perm results) :
    (collect_full_catalog results2).Perm (collect_full_catalog results) :=
  (collectKeys_perm results results2 h).map _

/-- Two permuted lists with equal, duplicate-free key sequences are equal. -/
theorem eq_of_perm_of_map_eq {α β : Type} (f : α → β) :
    ∀ (l1 l2 : List α), l1.Perm l2 → l1.map f = l2.map f → (l2.map f).Nodup → l1 = l2 := by
  intro l1
  induction l1 with
  | nil =>
    intro l2 hperm _ _
    exact (hperm.symm.eq_nil).symm
  | cons a t ih =>
    intro l2 hperm hmap hnodup
    cases l2 with
    | nil => simp at hperm
    | cons b t2 =>
      simp only [List.map_cons, List.cons.injEq] at hmap
      have hab : a = b := by
        have hamem : a ∈ b :: t2 := hperm.mem_iff.mp (List.mem_cons_self a t)
        rcases List.mem_cons.mp hamem with rfl | hat2
        · rfl
        · exfalso
          have hfa : f a ∈ List.map f t2 := List.mem_map_of_mem f hat2
          rw [hmap.1] at hfa
          exact (List.nodup_cons.mp hnodup).1 hfa
      subst hab
      have ht : t = t2 := ih t2 hperm.cons_inv hmap.2 (List.nodup_cons.mp hnodup).2
      rw [ht]

/-- C9, counterexample: with the same per-term responses and per-id prices,
two completion orders of the same two term results produce different final
sorted lists (two records share the sort key `("X", "X")` but carry the
distinct prices `"p"` and `"q"`, and the stable sort preserves their
catalog order, which depends on completion order). -/
theorem c9_counterexample :
    [[RawItem.mk "2" "X"], [RawItem.mk "1" "X"]].Perm
      [[RawItem.mk "1" "X"], [RawItem.mk "2" "X"]] ∧
    finalOutput (fun s => if s = "1" then "p" else "q")
        [[RawItem.mk "2" "X"], [RawItem.mk "1" "X"]]
      ≠ finalOutput (fun s => if s = "1" then "p" else "q")
        [[RawItem.mk "1" "X"], [RawItem.mk "2" "X"]] := by
  have hs1 : List.Pairwise (fun a b => prodLe a b = true)
      [(⟨"X", "X", "p"⟩ : Enriched), ⟨"X", "X", "q"⟩] := by
    constructor
    · intro b hb
      rw [List.mem_singleton.mp hb]
      decide
    · exact List.pairwise_singleton _ _
  have hs2 : List.Pairwise (fun a b => prodLe a b = true)
      [(⟨"X", "X", "q"⟩ : Enriched), ⟨"X", "X", "p"⟩] := by
    constructor
    · intro b hb
      rw [List.mem_singleton.mp hb]
      decide
    · exact List.pairwise_singleton _ _
  have e1 : finalOutput (fun s => if s = "1" then "p" else "q")
      [[RawItem.mk "1" "X"], [RawItem.mk "2" "X"]]
      = [⟨"X", "X", "p"⟩, ⟨"X", "X", "q"⟩] := by
    rw [finalOutput,
      show (enrich_with_prices (fun s => if s = "1" then "p" else "q")
          (collect_full_catalog [[RawItem.mk "1" "X"], [RawItem.mk "2" "X"]])).enriched
        = [⟨"X", "X", "p"⟩, ⟨"X", "X", "q"⟩] from by decide,
      save_json]
    exact List.mergeSort_of_sorted hs1
  have e2 : finalOutput (fun s => if s = "1" then "p" else "q")
      [[RawItem.mk "2" "X"], [RawItem.mk "1" "X"]]
      = [⟨"X", "X", "q"⟩, ⟨"X", "X", "p"⟩] := by
    rw [finalOutput,
      show (enrich_with_prices (fun s => if s = "1" then "p" else "q")
          (collect_full_catalog [[RawItem.mk "2" "X"], [RawItem.mk "1" "X"]])).enriched
        = [⟨"X", "X", "q"⟩, ⟨"X", "X", "p"⟩] from by decide,
      save_json]
    exact List.mergeSort_of_sorted hs2
  refine ⟨by decide, ?_⟩
  rw [e1, e2]
  decide

/-- C9, amended: given the same per-term responses and the same per-id
prices, the final sorted list produced after a permuted (concurrent)
completion order is a permutation of the sequential one with an identical
sequence of sort keys `(product_name, product_code)`; the two lists coincide
whenever no two records share a sort key (order may differ only among records
with equal keys, whose prices can differ). -/
theorem c9_pipeline_determinism (fetch : String → String)
    (results results2 : List (List RawItem)) (hperm : results2.Perm results) :
    (finalOutput fetch results2).Perm (finalOutput fetch results) ∧
    (finalOutput fetch results2).map sortKey = (finalOutput fetch results).map sortKey ∧
    (((finalOutput fetch results).map sortKey).Nodup →
      finalOutput fetch results2 = finalOutput fetch results) := by
  have hcat := collect_full_catalog_perm results results2 hperm
  have henr : (enrich_with_prices fetch (collect_full_catalog results2)).enriched.Perm
      (enrich_with_prices fetch (collect_full_catalog results)).enriched := by
    rw [enrich_enriched_eq, enrich_enriched_eq]
    exact hcat.map _
  have hfin : (finalOutput fetch results2).Perm (finalOutput fetch results) := by
    rw [finalOutput, finalOutput, save_json, save_json]
    exact ((List.mergeSort_perm _ prodLe).trans henr).trans (List.mergeSort_perm _ prodLe).symm
  have hsorted2 : List.Pairwise (fun a b => keyLE a b = true)
      ((finalOutput fetch results2).map sortKey) := by
    rw [List.pairwise_map]
    exact List.sorted_mergeSort prodLe_trans prodLe_total _
  have hsorted1 : List.Pairwise (fun a b => keyLE a b = true)
      ((finalOutput fetch results).map sortKey) := by
    rw [List.pairwise_map]
    exact List.sorted_mergeSort prodLe_trans prodLe_total _
  have hmapeq : (finalOutput fetch results2).map sortKey
      = (finalOutput fetch results).map sortKey :=
    @List.eq_of_perm_of_sorted _ (fun a b => keyLE a b = true)
      ⟨fun a b hab hba => keyLE_antisymm a b hab hba⟩ _ _
      (hfin.map sortKey) hsorted2 hsorted1
  exact ⟨hfin, hmapeq, fun hnd => eq_of_perm_of_map_eq sortKey _ _ hfin hmapeq hnd⟩

/-- C9, witness: the amended theorem applied to the two concrete completion
orders of the counterexample: the final lists are permutations of each other. -/
theorem c9_witness :
    (finalOutput (fun s => if s = "1" then "p" else "q")
        [[RawItem.mk "2" "X"], [RawItem.mk "1" "X"]]).Perm
      (finalOutput (fun s => if s = "1" then "p" else "q")
        [[RawItem.mk "1" "X"], [RawItem.mk "2" "X"]]) :=
  (c9_pipeline_determinism (fun s => if s = "1" then "p" else "q")
    [[RawItem.mk "1" "X"], [RawItem.mk "2" "X"]]
    [[RawItem.mk "2" "X"], [RawItem.mk "1" "X"]] (by decide)).1
